import Mathlib

/-!
Shallow embedding of `src/password_tool.py` (PassStrength-Analyzer).

Strings are modelled as Lean `String` (a wrapper around `List Char`); the
repository's examples and claims are ASCII, and the Python `str.lower`,
`str.upper`, `str.title`, `str.isalpha`, `str.isdigit`, whitespace
predicates are modelled with Lean's ASCII `Char` operations.

Python `set` objects are modelled as duplicate-free lists built with
`List.dedup`; every claim under consideration is insensitive to the
(unspecified) iteration order of a CPython set.

Real-valued computations (`math.log2`, Shannon entropy) are modelled over
`ℝ`, idealising IEEE floating point.
-/

namespace PasswordTool

/-- Python `str.lower()` (ASCII scope): lowercase every character. -/
def pyLower (s : String) : String := ⟨s.toList.map Char.toLower⟩

/-- Python `str.upper()` (ASCII scope): uppercase every character. -/
def pyUpper (s : String) : String := ⟨s.toList.map Char.toUpper⟩

/-- Helper for Python `str.title()`: the `Bool` argument records whether the
previous character was alphabetic (cased).  A cased character starting a word
is uppercased, later cased characters of the word are lowercased. -/
def pyTitleAux : Bool → List Char → List Char
  | _, [] => []
  | prev, c :: cs =>
      if c.isAlpha then
        (if prev then c.toLower else c.toUpper) :: pyTitleAux true cs
      else
        c :: pyTitleAux false cs

/-- Python `str.title()` (ASCII scope). -/
def pyTitle (s : String) : String := ⟨pyTitleAux false s.toList⟩

/-- `LEET_MAP` from `password_tool.py`: the substitution characters offered for
a (lowercased) character.  Every substitution in the source is a single
character. -/
def leetSubs (c : Char) : List Char :=
  if c = 'a' then ['4', '@']
  else if c = 'b' then ['8']
  else if c = 'e' then ['3']
  else if c = 'g' then ['6', '9']
  else if c = 'i' then ['1', '!']
  else if c = 'l' then ['1', '|']
  else if c = 'o' then ['0']
  else if c = 's' then ['5', '$']
  else if c = 't' then ['7']
  else if c = 'z' then ['2']
  else []

/-- `options = [ch]; if ch.lower() in LEET_MAP: options.extend(LEET_MAP[ch.lower()])`
from `apply_leetspeak`. -/
def leetOptions (c : Char) : List Char := c :: leetSubs c.toLower

/-- `itertools.product(*chars)` in the order CPython yields it: the leftmost
position is the outermost loop. -/
def leetProduct : List Char → List (List Char)
  | [] => [[]]
  | c :: cs => (leetOptions c).flatMap (fun o => (leetProduct cs).map (o :: ·))

/-- The accumulation loop of `apply_leetspeak`: add each combo to the variant
set (duplicates are no-ops), breaking as soon as the set holds at least
`maxVariants` entries.  The set is modelled as a duplicate-free list in
insertion order. -/
def collectVariants (maxVariants : Nat) : List String → List String → List String
  | [], acc => acc
  | c :: rest, acc =>
      let acc' := if c ∈ acc then acc else acc ++ [c]
      if maxVariants ≤ acc'.length then acc'
      else collectVariants maxVariants rest acc'

/-- `apply_leetspeak(token, max_variants)` from `password_tool.py`.  The Python
default for `max_variants` is 128; call sites in the embedding pass it
explicitly. -/
def apply_leetspeak (token : String) (maxVariants : Nat) : List String :=
  collectVariants maxVariants
    ((leetProduct token.toList).map (fun l => (⟨l⟩ : String))) []

/-- `case_variants(token)`: the set `{lower, upper, title}` plus, when the
token starts with an alphabetic character, the token with its first character
uppercased and the rest unchanged. -/
def case_variants (token : String) : List String :=
  ([pyLower token, pyUpper token, pyTitle token] ++
    (match token.toList with
     | [] => []
     | c :: rest => if c.isAlpha then [(⟨c.toUpper :: rest⟩ : String)] else [])).dedup

/-- Decimal representation of a Python `int` (`str(y)`). -/
def intStr (y : Int) : List Char :=
  if y < 0 then '-' :: Nat.toDigits 10 (-y).toNat else Nat.toDigits 10 y.toNat

/-- Python `str(y)` as a `String`. -/
def yearStr (y : Int) : String := ⟨intStr y⟩

/-- Python `str(y)[-2:]`: the last two characters (the whole string when it is
shorter than two characters). -/
def yearStr2 (y : Int) : String := ⟨(intStr y).drop ((intStr y).length - 2)⟩

/-- `append_years(tokens, years)`: for each token add the token itself, the
token followed by the full year, and the token followed by the year's last two
digits; the Python result set is modelled as a dedup'd list in insertion
order. -/
def append_years (tokens : List String) (years : List Int) : List String :=
  (tokens.flatMap (fun t =>
    t :: years.flatMap (fun y => [t ++ yearStr y, t ++ yearStr2 y]))).dedup

/-- `itertools.permutations(tokens, 2)`: ordered pairs of entries at distinct
indices, outer index first. -/
def permPairs (l : List String) : List (String × String) :=
  l.enum.flatMap (fun a =>
    l.enum.filterMap (fun b => if a.1 = b.1 then none else some (a.2, b.2)))

/-- `add_separators(tokens, separators)`: every separator-joined ordered pair
of distinct tokens, as a dedup'd list. -/
def add_separators (tokens : List String) (separators : List String) : List String :=
  ((permPairs tokens).flatMap (fun p =>
    separators.map (fun sep => p.1 ++ sep ++ p.2))).dedup

/-- Python `str.split()` (no argument): split on whitespace runs, producing no
empty fields.  The accumulator holds the current field reversed. -/
def wsSplitAux : List Char → List Char → List (List Char)
  | [], cur => if cur = [] then [] else [cur.reverse]
  | c :: cs, cur =>
      if c.isWhitespace then
        (if cur = [] then wsSplitAux cs [] else cur.reverse :: wsSplitAux cs [])
      else wsSplitAux cs (c :: cur)

/-- `tokenize_inputs(raw_inputs)` with the optional `nltk` dependency absent
(`ensure_nltk()` returns `None`, so no lemmatized duplicates are appended):
replace `_` and `-` by spaces, split on whitespace, keep insertion order, and
deduplicate via `dict.fromkeys`.  The `token.strip()` and emptiness check of
the source are no-ops after `str.split()`. -/
def tokenize_inputs (raw_inputs : List String) : List String :=
  (raw_inputs.flatMap (fun item =>
    (wsSplitAux (item.toList.map (fun c => if c = '_' ∨ c = '-' then ' ' else c)) []).map
      (fun l => (⟨l⟩ : String)))).dedup

/-- Python slice `l[:m]` for an `int` bound `m`: a nonnegative bound keeps the
first `m` entries, a negative bound drops the last `|m|` entries. -/
def pySliceTo (l : List String) (m : Int) : List String :=
  if 0 ≤ m then l.take m.toNat else l.take (l.length - m.natAbs)

/-- `build_wordlist(user_inputs, years, separators, include_leet, max_size)`:
case variants and (optionally) leetspeak variants of every token, then
separator-joined pairs, then year suffixes, deduplicated throughout and
truncated to `max_size` when longer.  `include_leet` calls `apply_leetspeak`
with its default `max_variants = 128`. -/
def build_wordlist (user_inputs : List String) (years : List Int)
    (separators : List String) (include_leet : Bool) (max_size : Int) : List String :=
  let base_tokens := tokenize_inputs user_inputs
  let expanded := (base_tokens.flatMap (fun t =>
    case_variants t ++ (if include_leet then apply_leetspeak t 128 else []))).dedup
  let expanded2 := (expanded ++ add_separators expanded separators).dedup
  let expanded3 := append_years expanded2 years
  let wordlist := expanded3.dedup
  if (wordlist.length : Int) > max_size then pySliceTo wordlist max_size else wordlist

/-- Python `str.strip()` (ASCII whitespace scope). -/
def pyStrip (s : List Char) : List Char :=
  ((s.dropWhile Char.isWhitespace).reverse.dropWhile Char.isWhitespace).reverse

/-- Python `str.split(sep)` for a single-character separator, keeping empty
fields (`"".split(",") == [""]`). -/
def splitOnChar (sep : Char) : List Char → List Char → List (List Char)
  | [], cur => [cur.reverse]
  | c :: cs, cur =>
      if c = sep then cur.reverse :: splitOnChar sep cs []
      else splitOnChar sep cs (c :: cur)

/-- Grammar of the digit part of a Python `int` literal after the first digit:
digits, with single underscores allowed strictly between digits. -/
def digitsCore : List Char → Bool
  | [] => true
  | c :: cs =>
      if c.isDigit then digitsCore cs
      else if c = '_' then
        match cs with
        | d :: rest => d.isDigit && digitsCore rest
        | [] => false
      else false

/-- A nonempty digit string acceptable to Python `int()` (underscores only
between digits). -/
def digitsOk : List Char → Bool
  | [] => false
  | c :: cs => c.isDigit && digitsCore cs

/-- Numeric value of a digit string, ignoring underscores. -/
def digitsVal (ds : List Char) : Nat :=
  (ds.filter (fun c => c ≠ '_')).foldl (fun acc d => 10 * acc + (d.toNat - '0'.toNat)) 0

/-- Python `int(s)` on a decimal string (ASCII scope): strip whitespace, an
optional sign, then digits with optional single underscores between them;
`none` models a raised `ValueError`. -/
def pyInt (s : List Char) : Option Int :=
  let t := pyStrip s
  let p : Bool × List Char :=
    match t with
    | '+' :: r => (false, r)
    | '-' :: r => (true, r)
    | r => (false, r)
  if digitsOk p.2 then
    some ((if p.1 then -1 else 1) * (digitsVal p.2 : Int))
  else none

/-- Python `range(a, b)` over `Int`. -/
def intRange (a b : Int) : List Int :=
  (List.range (b - a).toNat).map (fun i => a + i)

/-- The year-collection loop of `parse_years`: split on commas, strip each
part, skip empty parts; a part containing `-` is split at the first `-` and
contributes the inclusive range when both sides parse as `int` (otherwise the
`ValueError` is caught and the part skipped); any other part contributes its
`int` value when it parses. -/
def parseRawYears (s : List Char) : List Int :=
  (splitOnChar ',' s []).flatMap (fun part0 =>
    let part := pyStrip part0
    if part = [] then []
    else if part.contains '-' then
      let a := part.takeWhile (fun c => c ≠ '-')
      let b := ((part.dropWhile (fun c => c ≠ '-')).drop 1)
      match pyInt a, pyInt b with
      | some x, some y => intRange x (y + 1)
      | _, _ => []
    else
      match pyInt part with
      | some v => [v]
      | none => [])

/-- The final line of `parse_years`:
`sorted(set(y for y in years if 1900 <= y <= 2100))`, modelled as filter,
dedup and a sort. -/
def finishYears (years : List Int) : List Int :=
  List.insertionSort (· ≤ ·)
    ((years.filter (fun y => decide (1900 ≤ y ∧ y ≤ 2100))).dedup)

/-- `parse_years(years_arg)` from `password_tool.py`.  The wall clock read
`datetime.now().year` is modelled as the explicit parameter `current_year`.
When no entry parses the default 3-year window around `current_year` is used;
the result is filtered to `[1900, 2100]`, deduplicated (`set`) and sorted. -/
def parse_years (current_year : Int) (years_arg : String) : List Int :=
  finishYears
    (if parseRawYears years_arg.toList = [] then
      [current_year - 1, current_year, current_year + 1]
    else parseRawYears years_arg.toList)

/-- Number of distinct characters of a password: `len(set(password))`. -/
def distinctCount (s : String) : Nat := s.toList.dedup.length

/-- `shannon_entropy(password)`:
`-Σ (count/len)·log2(count/len)` over the distinct characters, times the
length; `0.0` on the empty string. -/
noncomputable def shannon_entropy (password : String) : ℝ :=
  if password.toList = [] then 0
  else
    (-((password.toList.dedup.map (fun ch =>
        ((password.toList.count ch : ℝ) / (password.toList.length : ℝ)) *
          Real.logb 2
            ((password.toList.count ch : ℝ) / (password.toList.length : ℝ)))).sum)) *
      (password.toList.length : ℝ)

/-- `char_space or 1` of the fallback branch of `analyze_password`. -/
def charSpaceOr1 (s : String) : Nat :=
  if distinctCount s = 0 then 1 else distinctCount s

/-- `naive_bits = math.log2(char_space or 1) * len(password)` from the
fallback branch of `analyze_password`. -/
noncomputable def naive_bits (password : String) : ℝ :=
  Real.logb 2 (charSpaceOr1 password : ℝ) * (password.length : ℝ)

/-- The `StrengthResult` dataclass. -/
structure StrengthResult where
  password : String
  score : Int
  crack_time_display : String
  feedback : String
  entropy_bits : ℝ

/-- `analyze_password(password, user_inputs)` in the degraded mode where the
optional `zxcvbn` dependency failed to import (`zxcvbn is None`), i.e. the
fallback-heuristic branch.  `score = min(4, int(naive_bits // 20))`; since
`naive_bits` is nonnegative, floor division followed by `int` truncation is
the floor.  The function is total: no exception escapes. -/
noncomputable def analyze_password (password : String) (user_inputs : List String) :
    StrengthResult :=
  { password := password
    score := min 4 ⌊naive_bits password / 20⌋
    crack_time_display := "zxcvbn not installed; using heuristic"
    feedback := "Install zxcvbn for richer analysis"
    entropy_bits := shannon_entropy password }

/-! ## General lemmas about the embedding -/

/-- The first combination `itertools.product` yields is the all-first-choices
one, i.e. the original character list. -/
theorem leetProduct_eq_cons (cs : List Char) :
    ∃ rest, leetProduct cs = cs :: rest := by
  induction cs with
  | nil => exact ⟨[], rfl⟩
  | cons c cs ih =>
      obtain ⟨rest, hrest⟩ := ih
      refine ⟨rest.map (c :: ·) ++
        ((leetSubs c.toLower).flatMap (fun o => (leetProduct cs).map (o :: ·))), ?_⟩
      simp only [leetProduct, leetOptions, List.flatMap_cons, hrest, List.map_cons,
        List.cons_append]

/-- Membership in the variant accumulator is preserved by the collection
loop. -/
theorem mem_collectVariants_of_mem (maxVariants : Nat) (a : String) :
    ∀ (combos acc : List String), a ∈ acc → a ∈ collectVariants maxVariants combos acc := by
  intro combos
  induction combos with
  | nil => intro acc h; simpa [collectVariants] using h
  | cons c rest ih =>
      intro acc h
      simp only [collectVariants]
      have h' : a ∈ if c ∈ acc then acc else acc ++ [c] := by
        split <;> simp [h]
      by_cases hc : maxVariants ≤ (if c ∈ acc then acc else acc ++ [c]).length
      · rw [if_pos hc]; exact h'
      · rw [if_neg hc]; exact ih _ h'

/-- The first combination processed by the collection loop ends up in the
result, cap or no cap. -/
theorem head_mem_collectVariants (maxVariants : Nat) (c : String)
    (rest acc : List String) : c ∈ collectVariants maxVariants (c :: rest) acc := by
  simp only [collectVariants]
  have h' : c ∈ if c ∈ acc then acc else acc ++ [c] := by
    split
    · assumption
    · simp
  by_cases hc : maxVariants ≤ (if c ∈ acc then acc else acc ++ [c]).length
  · rw [if_pos hc]; exact h'
  · rw [if_neg hc]; exact mem_collectVariants_of_mem _ _ _ _ h'

/-- As long as the accumulator is strictly below the cap, the collection loop
returns at most `maxVariants` variants. -/
theorem collectVariants_length_le (maxVariants : Nat) :
    ∀ (combos acc : List String), acc.length < maxVariants →
      (collectVariants maxVariants combos acc).length ≤ maxVariants := by
  intro combos
  induction combos with
  | nil => intro acc h; simpa [collectVariants] using h.le
  | cons c rest ih =>
      intro acc h
      simp only [collectVariants]
      have hlen : (if c ∈ acc then acc else acc ++ [c]).length ≤ acc.length + 1 := by
        split <;> simp
      by_cases hc : maxVariants ≤ (if c ∈ acc then acc else acc ++ [c]).length
      · rw [if_pos hc]; omega
      · rw [if_neg hc]; exact ih _ (by omega)

/-- Everything `finishYears` returns lies in the sane year bound. -/
theorem finishYears_mem (years : List Int) (y : Int) (h : y ∈ finishYears years) :
    1900 ≤ y ∧ y ≤ 2100 := by
  simp only [finishYears, List.mem_insertionSort, List.mem_dedup, List.mem_filter,
    decide_eq_true_eq] at h
  exact h.2

/-- `finishYears` returns a duplicate-free list. -/
theorem finishYears_nodup (years : List Int) : (finishYears years).Nodup :=
  (List.perm_insertionSort _ _).nodup_iff.mpr (List.nodup_dedup _)

/-- On a 3-year window that lies strictly inside the `[1900, 2100]` bound,
`finishYears` is the identity. -/
theorem finishYears_window (cy : Int) (h1 : 1901 ≤ cy) (h2 : cy ≤ 2099) :
    finishYears [cy - 1, cy, cy + 1] = [cy - 1, cy, cy + 1] := by
  have hfilter : [cy - 1, cy, cy + 1].filter (fun y => decide (1900 ≤ y ∧ y ≤ 2100)) =
      [cy - 1, cy, cy + 1] := by
    apply List.filter_eq_self.mpr
    intro a ha
    simp only [List.mem_cons, List.not_mem_nil, or_false] at ha
    simp only [decide_eq_true_eq]
    rcases ha with rfl | rfl | rfl <;> omega
  have hnodup : ([cy - 1, cy, cy + 1] : List Int).Nodup := by
    refine List.nodup_cons.mpr ⟨?_, List.nodup_cons.mpr ⟨?_, List.nodup_singleton _⟩⟩
    · intro hx
      simp only [List.mem_cons, List.mem_singleton, List.not_mem_nil, or_false] at hx
      rcases hx with h | h <;> omega
    · intro hx
      simp only [List.mem_singleton] at hx
      omega
  have hsorted : List.Sorted (· ≤ ·) ([cy - 1, cy, cy + 1] : List Int) := by
    refine List.sorted_cons.mpr ⟨?_, List.sorted_cons.mpr ⟨?_, List.sorted_singleton _⟩⟩
    · intro b hb
      simp only [List.mem_cons, List.mem_singleton, List.not_mem_nil, or_false] at hb
      rcases hb with rfl | rfl <;> omega
    · intro b hb
      simp only [List.mem_singleton] at hb
      omega
  rw [finishYears, hfilter, List.dedup_eq_self.mpr hnodup,
    hsorted.insertionSort_eq]

/-- Truncation of a duplicate-free list to a nonnegative `Int` bound stays
within the bound and duplicate-free. -/
theorem truncate_spec (l : List String) (ms : Int) (h : 0 ≤ ms) (hn : l.Nodup) :
    (((if (l.length : Int) > ms then pySliceTo l ms else l).length : Int) ≤ ms) ∧
      (if (l.length : Int) > ms then pySliceTo l ms else l).Nodup := by
  constructor
  · split
    · simp only [pySliceTo, if_pos h, List.length_take]
      omega
    · omega
  · split
    · exact hn.sublist (by simp only [pySliceTo, if_pos h]; exact List.take_sublist _ _)
    · exact hn

/-! ## Claims -/

/-- C1 counterexample: with `max_size = -1` (a legal Python `int`), the
returned list has length `0`, which is not at most `-1`; the Python slice
`wordlist[:max_size]` does not enforce the bound for negative `max_size`. -/
theorem claim1_counterexample :
    ¬ (((build_wordlist [] [] [] false (-1)).length : Int) ≤ -1) := by decide

/-- C1 (amended): for every sequence of user inputs, years, separators,
leetspeak setting, and every nonnegative `max_size`, the list returned by
`build_wordlist` has length at most `max_size` and contains no duplicate
entries. -/
theorem claim1_wordlist_bounded_nodup (user_inputs : List String) (years : List Int)
    (separators : List String) (include_leet : Bool) (max_size : Int)
    (h : 0 ≤ max_size) :
    ((build_wordlist user_inputs years separators include_leet max_size).length : Int) ≤
        max_size ∧
      (build_wordlist user_inputs years separators include_leet max_size).Nodup :=
  truncate_spec _ max_size h (List.nodup_dedup _)

/-- C1 witness: the amended theorem applied at concrete inputs. -/
theorem claim1_witness :
    ((build_wordlist ["Rex"] [2024] [""] true 10).length : Int) ≤ 10 ∧
      (build_wordlist ["Rex"] [2024] [""] true 10).Nodup :=
  claim1_wordlist_bounded_nodup ["Rex"] [2024] [""] true 10 (by decide)

/-- C2: `parse_years "1990-1992,2024"` is exactly `{1990, 1991, 1992, 2024}`
(as a sorted list), and `parse_years ""` is the 3-year window around the
current year; the current year (read from the wall clock in the source) is a
parameter of the embedding and is assumed to keep the window inside the
code's `[1900, 2100]` filter. -/
theorem claim2_parse_years_examples (cy : Int) (h1 : 1901 ≤ cy) (h2 : cy ≤ 2099) :
    parse_years cy "1990-1992,2024" = [1990, 1991, 1992, 2024] ∧
      parse_years cy "" = [cy - 1, cy, cy + 1] := by
  constructor
  · have h : parseRawYears ("1990-1992,2024".toList) = [1990, 1991, 1992, 2024] := by
      decide
    rw [parse_years, h, if_neg (by decide)]
    decide
  · have h : parseRawYears ("".toList) = [] := by decide
    rw [parse_years, h, if_pos rfl]
    exact finishYears_window cy h1 h2

/-- C2 witness: the theorem applied at the concrete current year 2025. -/
theorem claim2_witness :
    parse_years 2025 "1990-1992,2024" = [1990, 1991, 1992, 2024] ∧
      parse_years 2025 "" = [2024, 2025, 2026] :=
  claim2_parse_years_examples 2025 (by decide) (by decide)

/-- C3: `parse_years` is total (invalid entries are skipped, nothing is
raised — the embedding returns a value for every input string), every
returned year lies in `[1900, 2100]`, the returned list is duplicate-free,
and when no entry parses (the collection loop yields `[]`) the result is the
3-year window centered on the current year (assumed, as in the source's
intended use, to keep the window inside the `[1900, 2100]` filter). -/
theorem claim3_parse_years_contract (cy : Int) (s : String)
    (h1 : 1901 ≤ cy) (h2 : cy ≤ 2099) :
    (∀ y ∈ parse_years cy s, 1900 ≤ y ∧ y ≤ 2100) ∧
      (parse_years cy s).Nodup ∧
      (parseRawYears s.toList = [] → parse_years cy s = [cy - 1, cy, cy + 1]) := by
  refine ⟨fun y hy => finishYears_mem _ y hy, finishYears_nodup _, fun h => ?_⟩
  rw [parse_years, h, if_pos rfl]
  exact finishYears_window cy h1 h2

/-- C3 witness: the theorem applied at current year 2025 and an input whose
entries are all invalid. -/
theorem claim3_witness :
    (∀ y ∈ parse_years 2025 "bogus,., -", 1900 ≤ y ∧ y ≤ 2100) ∧
      (parse_years 2025 "bogus,., -").Nodup ∧
      (parseRawYears ("bogus,., -".toList) = [] →
        parse_years 2025 "bogus,., -" = [2024, 2025, 2026]) :=
  claim3_parse_years_contract 2025 "bogus,., -" (by decide) (by decide)

/-- C6 counterexample: `"r3x2024"` itself is not produced — `apply_leetspeak`
is applied to the raw token `"Rex"` only (never to its lowercased case
variant), so the leetspeak variant keeps the original capitalization. -/
theorem claim6_counterexample :
    "r3x2024" ∉ build_wordlist ["Rex"] [2024] [""] true 50000 := by decide

/-- C6 (amended): with inputs `["Rex"]`, years `[2024]`, separators `[""]`,
and leetspeak enabled, the wordlist includes `"rex2024"`, `"REX2024"`,
`"Rex2024"`, and the leetspeak variant `"R3x2024"` (leetspeak is applied to
the raw token, so the variant keeps the original capitalization; the
lowercase `"r3x2024"` is not produced). -/
theorem claim6_example_wordlist :
    "rex2024" ∈ build_wordlist ["Rex"] [2024] [""] true 50000 ∧
      "REX2024" ∈ build_wordlist ["Rex"] [2024] [""] true 50000 ∧
      "Rex2024" ∈ build_wordlist ["Rex"] [2024] [""] true 50000 ∧
      "R3x2024" ∈ build_wordlist ["Rex"] [2024] [""] true 50000 := by decide

/-- C7: for every token and every positive cap, `apply_leetspeak` returns at
most `max_variants` variants (the source default is 128), regardless of how
many substitutable characters the token contains. -/
theorem claim7_leetspeak_bounded (token : String) (maxVariants : Nat)
    (h : 1 ≤ maxVariants) : (apply_leetspeak token maxVariants).length ≤ maxVariants :=
  collectVariants_length_le maxVariants _ [] (by simpa using h)

/-- C7 witness: the theorem applied at a token whose substitution fan-out
(3 `a`/`s` positions with 3 options each, etc.) exceeds the default cap
of 128. -/
theorem claim7_witness : (apply_leetspeak "assassins" 128).length ≤ 128 :=
  claim7_leetspeak_bounded "assassins" 128 (by decide)

/-- C8: the set returned by `apply_leetspeak` always contains the original
token unchanged: the identity combination is the first one
`itertools.product` yields, so it is inserted before any cap can trigger. -/
theorem claim8_leetspeak_contains_token (token : String) (maxVariants : Nat) :
    token ∈ apply_leetspeak token maxVariants := by
  obtain ⟨rest, hrest⟩ := leetProduct_eq_cons token.toList
  have : apply_leetspeak token maxVariants =
      collectVariants maxVariants (token :: rest.map (fun l => (⟨l⟩ : String))) [] := by
    rw [apply_leetspeak, hrest]
    rfl
  rw [this]
  exact head_mem_collectVariants _ _ _ _

/-- C9: `append_years` adds, for every token and every year, the token
itself, the token suffixed with the full year, and the token suffixed with
the last two characters of the year's decimal form (`str(y)[-2:]`). -/
theorem claim9_append_years_two_digit (tokens : List String) (years : List Int)
    (t : String) (y : Int) (ht : t ∈ tokens) (hy : y ∈ years) :
    t ∈ append_years tokens years ∧
      t ++ yearStr y ∈ append_years tokens years ∧
      t ++ yearStr2 y ∈ append_years tokens years := by
  refine ⟨?_, ?_, ?_⟩
  · rw [append_years, List.mem_dedup, List.mem_flatMap]
    exact ⟨t, ht, List.mem_cons_self _ _⟩
  · rw [append_years, List.mem_dedup, List.mem_flatMap]
    refine ⟨t, ht, List.mem_cons_of_mem _ ?_⟩
    rw [List.mem_flatMap]
    exact ⟨y, hy, by simp⟩
  · rw [append_years, List.mem_dedup, List.mem_flatMap]
    refine ⟨t, ht, List.mem_cons_of_mem _ ?_⟩
    rw [List.mem_flatMap]
    exact ⟨y, hy, by simp⟩

/-- C9 witness: the theorem applied at a concrete token and year. -/
theorem claim9_witness :
    "rex" ∈ append_years ["rex"] [2024] ∧
      "rex" ++ yearStr 2024 ∈ append_years ["rex"] [2024] ∧
      "rex" ++ yearStr2 2024 ∈ append_years ["rex"] [2024] :=
  claim9_append_years_two_digit ["rex"] [2024] "rex" 2024 (by decide) (by decide)

/-- C10: `parse_years` can return the empty list — an input all of whose
entries parse but fall outside `[1900, 2100]` (such as `"1800"`) bypasses the
default window and is then filtered to nothing; `append_years` with an empty
year list adds no year-suffixed variants (it returns just the deduplicated
tokens). -/
theorem claim10_empty_years :
    (∀ cy : Int, parse_years cy "1800" = []) ∧
      (∀ tokens : List String, append_years tokens [] = tokens.dedup) := by
  constructor
  · intro cy
    have h : parseRawYears ("1800".toList) = [1800] := by decide
    rw [parse_years, h, if_neg (by decide)]
    decide
  · intro tokens
    simp [append_years]

/-! ## Entropy lemmas -/

/-- `char_space or 1` is always at least 1. -/
theorem one_le_charSpaceOr1 (s : String) : 1 ≤ charSpaceOr1 s := by
  unfold charSpaceOr1
  split <;> omega

/-- The fallback `naive_bits` quantity is nonnegative. -/
theorem naive_bits_nonneg (pw : String) : 0 ≤ naive_bits pw := by
  unfold naive_bits
  apply mul_nonneg
  · exact Real.logb_nonneg (by norm_num) (Nat.one_le_cast.mpr (one_le_charSpaceOr1 pw))
  · positivity

/-- Sum of a list of nonpositive reals is nonpositive. -/
theorem list_sum_nonpos {l : List ℝ} (h : ∀ x ∈ l, x ≤ 0) : l.sum ≤ 0 := by
  induction l with
  | nil => simp
  | cons a l ih =>
      simp only [List.sum_cons]
      have ha := h a (by simp)
      have hl := ih (fun x hx => h x (by simp [hx]))
      linarith

/-- Shannon entropy of any password is nonnegative. -/
theorem shannon_entropy_nonneg (pw : String) : 0 ≤ shannon_entropy pw := by
  unfold shannon_entropy
  split
  · exact le_refl 0
  · rename_i hne
    apply mul_nonneg
    · rw [neg_nonneg]
      apply list_sum_nonpos
      intro x hx
      simp only [List.mem_map] at hx
      obtain ⟨ch, hch, rfl⟩ := hx
      have hmem : ch ∈ pw.toList := List.mem_dedup.mp hch
      have hcount : 0 < pw.toList.count ch := List.count_pos_iff.mpr hmem
      have hlen : 0 < pw.toList.length := List.length_pos.mpr hne
      have hL : (0 : ℝ) < (pw.toList.length : ℝ) := by exact_mod_cast hlen
      have hp0 : (0 : ℝ) < (pw.toList.count ch : ℝ) / (pw.toList.length : ℝ) :=
        div_pos (by exact_mod_cast hcount) hL
      have hp1 : (pw.toList.count ch : ℝ) / (pw.toList.length : ℝ) ≤ 1 :=
        (div_le_one hL).mpr (by exact_mod_cast List.count_le_length ch pw.toList)
      have hlogb : Real.logb 2
          ((pw.toList.count ch : ℝ) / (pw.toList.length : ℝ)) ≤ 0 :=
        Real.logb_nonpos (by norm_num) hp0.le hp1
      exact mul_nonpos_iff.mpr (Or.inl ⟨hp0.le, hlogb⟩)
    · positivity

/-- `charSpaceOr1` is monotone in the distinct-character count. -/
theorem charSpaceOr1_mono {s t : String} (h : distinctCount s ≤ distinctCount t) :
    charSpaceOr1 s ≤ charSpaceOr1 t := by
  unfold charSpaceOr1
  split <;> split <;> omega

/-- `naive_bits` is monotone in the distinct-character count at fixed
length. -/
theorem naive_bits_mono_distinct (s t : String) (hlen : s.length = t.length)
    (hd : distinctCount s ≤ distinctCount t) : naive_bits s ≤ naive_bits t := by
  unfold naive_bits
  rw [hlen]
  apply mul_le_mul_of_nonneg_right _ (by positivity)
  exact Real.logb_le_logb_of_le (by norm_num)
    (by exact_mod_cast Nat.lt_of_lt_of_le Nat.zero_lt_one (one_le_charSpaceOr1 s))
    (Nat.cast_le.mpr (charSpaceOr1_mono hd))

/-- `naive_bits` is monotone in the length at fixed distinct-character
count. -/
theorem naive_bits_mono_length (s t : String) (hd : distinctCount s = distinctCount t)
    (hlen : s.length ≤ t.length) : naive_bits s ≤ naive_bits t := by
  unfold naive_bits
  have h1 : charSpaceOr1 s = charSpaceOr1 t := by
    unfold charSpaceOr1
    rw [hd]
  rw [h1]
  exact mul_le_mul_of_nonneg_left (Nat.cast_le.mpr hlen)
    (Real.logb_nonneg (by norm_num) (Nat.one_le_cast.mpr (one_le_charSpaceOr1 t)))

/-- Evaluation shape of `shannon_entropy` on a nonempty password whose dedup
list is known. -/
theorem shannon_entropy_eval (pw : String) (chars : List Char)
    (hne : ¬ (pw.toList = [])) (hd : pw.toList.dedup = chars) :
    shannon_entropy pw =
      (-((chars.map (fun ch =>
          ((pw.toList.count ch : ℝ) / (pw.toList.length : ℝ)) *
            Real.logb 2
              ((pw.toList.count ch : ℝ) / (pw.toList.length : ℝ)))).sum)) *
        (pw.toList.length : ℝ) := by
  unfold shannon_entropy
  rw [if_neg hne, hd]

/-- `log2 (1/2) = -1`. -/
theorem logb_two_half : Real.logb 2 ((1 : ℝ) / 2) = -1 := by
  rw [one_div, Real.logb_inv, Real.logb_self_eq_one (by norm_num)]

/-- `log2 (4/5) = 2 - log2 5`. -/
theorem logb_two_four_fifths : Real.logb 2 ((4 : ℝ) / 5) = 2 - Real.logb 2 5 := by
  rw [Real.logb_div (by norm_num) (by norm_num)]
  have h4 : Real.logb 2 (4 : ℝ) = 2 := by
    rw [show (4 : ℝ) = 2 ^ (2 : ℕ) by norm_num, Real.logb_pow,
      Real.logb_self_eq_one (by norm_num)]
    norm_num
  rw [h4]

/-- `log2 (1/5) = -log2 5`. -/
theorem logb_two_fifth : Real.logb 2 ((1 : ℝ) / 5) = -Real.logb 2 5 := by
  rw [one_div, Real.logb_inv]

/-- `log2 5 < 12/5`, because `5^5 = 3125 < 4096 = 2^12`. -/
theorem logb_two_five_lt : Real.logb 2 5 < 12 / 5 := by
  rw [Real.logb_lt_iff_lt_rpow (by norm_num) (by norm_num)]
  have key : ((5 : ℝ)) ^ (5 : ℕ) < ((2 : ℝ) ^ ((12 : ℝ) / 5)) ^ (5 : ℕ) := by
    rw [← Real.rpow_natCast ((2 : ℝ) ^ ((12 : ℝ) / 5)) 5,
      ← Real.rpow_mul (by norm_num : (0 : ℝ) ≤ 2)]
    rw [show ((12 : ℝ) / 5) * ((5 : ℕ) : ℝ) = ((12 : ℕ) : ℝ) by norm_num,
      Real.rpow_natCast]
    norm_num
  exact lt_of_pow_lt_pow_left₀ 5 (by positivity) key

/-- `shannon_entropy "aabb" = 4` (two characters, balanced). -/
theorem shannon_entropy_aabb : shannon_entropy "aabb" = 4 := by
  rw [shannon_entropy_eval "aabb" ['a', 'b'] (by decide) (by decide)]
  have hca : (("aabb" : String).toList.count 'a') = 2 := by decide
  have hcb : (("aabb" : String).toList.count 'b') = 2 := by decide
  have hl : (("aabb" : String).toList.length) = 4 := by decide
  rw [List.map_cons, List.map_cons, List.map_nil, List.sum_cons, List.sum_cons,
    List.sum_nil, hca, hcb, hl]
  have h24 : ((2 : ℕ) : ℝ) / ((4 : ℕ) : ℝ) = (1 : ℝ) / 2 := by norm_num
  rw [h24, logb_two_half]
  norm_num

/-- `shannon_entropy "aaaab" = 5·log2 5 − 8` (two characters, skewed 4:1). -/
theorem shannon_entropy_aaaab : shannon_entropy "aaaab" = 5 * Real.logb 2 5 - 8 := by
  rw [shannon_entropy_eval "aaaab" ['a', 'b'] (by decide) (by decide)]
  have hca : (("aaaab" : String).toList.count 'a') = 4 := by decide
  have hcb : (("aaaab" : String).toList.count 'b') = 1 := by decide
  have hl : (("aaaab" : String).toList.length) = 5 := by decide
  rw [List.map_cons, List.map_cons, List.map_nil, List.sum_cons, List.sum_cons,
    List.sum_nil, hca, hcb, hl]
  have h45 : ((4 : ℕ) : ℝ) / ((5 : ℕ) : ℝ) = (4 : ℝ) / 5 := by norm_num
  have h15 : ((1 : ℕ) : ℝ) / ((5 : ℕ) : ℝ) = (1 : ℝ) / 5 := by norm_num
  rw [h45, h15, logb_two_four_fifths, logb_two_fifth]
  push_cast
  ring

/-- C4: in the degraded mode where `zxcvbn` is unavailable, `analyze_password`
is a total function (nothing is raised) and its fallback score lies in the
same bounded range `0..4` as the external scorer, for every password and
every optional list of user inputs. -/
theorem claim4_fallback_score_bounded (pw : String) (ui : List String) :
    0 ≤ (analyze_password pw ui).score ∧ (analyze_password pw ui).score ≤ 4 := by
  constructor
  · show (0 : Int) ≤ min 4 ⌊naive_bits pw / 20⌋
    exact le_min (by norm_num)
      (Int.floor_nonneg.mpr (div_nonneg (naive_bits_nonneg pw) (by norm_num)))
  · exact min_le_left _ _

/-- C5 counterexample: Shannon entropy is NOT monotone in the length at a
fixed distinct-character count — `"aabb"` and `"aaaab"` both have 2 distinct
characters, the latter is longer, yet its entropy `5·log2 5 − 8 ≈ 3.61` is
strictly below the former's `4`. -/
theorem claim5_counterexample :
    distinctCount "aaaab" = distinctCount "aabb" ∧
      ("aabb" : String).length ≤ ("aaaab" : String).length ∧
      shannon_entropy "aaaab" < shannon_entropy "aabb" := by
  refine ⟨by decide, by decide, ?_⟩
  rw [shannon_entropy_aaaab, shannon_entropy_aabb]
  have h := logb_two_five_lt
  linarith

/-- C5 (amended): both fallback quantities (the naive
`log2(distinct) × length` bits and the Shannon entropy
`−Σ p·log2 p × length`) are nonnegative for every password, and the naive
quantity is monotone nondecreasing in the distinct-character count at fixed
length and in the length at fixed distinct-character count; the Shannon
entropy is dropped from the monotonicity clause (see the counterexample). -/
theorem claim5_entropy_properties :
    (∀ pw : String, 0 ≤ shannon_entropy pw) ∧
      (∀ pw : String, 0 ≤ naive_bits pw) ∧
      (∀ s t : String, s.length = t.length → distinctCount s ≤ distinctCount t →
        naive_bits s ≤ naive_bits t) ∧
      (∀ s t : String, distinctCount s = distinctCount t → s.length ≤ t.length →
        naive_bits s ≤ naive_bits t) :=
  ⟨shannon_entropy_nonneg, naive_bits_nonneg, naive_bits_mono_distinct,
    naive_bits_mono_length⟩

/-- C5 witness: the monotonicity conjunct applied at concrete strings. -/
theorem claim5_witness : naive_bits "aa" ≤ naive_bits "ab" :=
  claim5_entropy_properties.2.2.1 "aa" "ab" (by decide) (by decide)

end PasswordTool
